import Mathlib

/-!
Shallow embedding of the sheen-LUT fitting program (main.py together with
thirdparty/read_dds.py) and proofs of the specification claims about it.

Real numbers of the Python program (numpy float64 / float16 values) are
modelled as rationals; machine integers are modelled as Nat.
-/

namespace SheenLUT

/-- Chebyshev polynomial of the first kind, `T_n(x)`.  This embeds the call
`chebval(x, [0]*i + [1])` of main.py, which evaluates the Chebyshev series
whose only nonzero coefficient is a 1 in position `i`, i.e. `T_i(x)`. -/
def cheb : Nat → ℚ → ℚ
  | 0, _ => 1
  | 1, x => x
  | n + 2, x => 2 * x * cheb (n + 1) x - cheb n x

/-- Triangular basis enumeration of main.py line 98:
`terms = [(i, j) for i in range(deg + 1) for j in range(deg - i + 1)]`. -/
def terms (D : Nat) : List (Nat × Nat) :=
  (List.range (D + 1)).flatMap fun i => (List.range (D - i + 1)).map fun j => (i, j)

/-- Normalized coordinates of main.py lines 93-94: `np.linspace(0, 1, n)`,
which is the sequence `k / (n - 1)` for `k = 0 .. n-1`. -/
def linspace01 (n : Nat) : List ℚ :=
  List.map (fun k : Nat => (k : ℚ) / ((n : ℚ) - 1)) (List.range n)

/-- Design matrix of main.py lines 103-109.  The code fills column `k`
(for term `(i, j)`) with `chebval(R_.ravel(), e_i) * chebval(C_.ravel(), e_j)`
where `R_, C_ = meshgrid(r, c, indexing='ij')`, so the flattened row `m`
corresponds to grid cell `(m / W, m % W)` and the entry in row `m`,
column `k` is `T_i(r[m / W]) * T_j(c[m % W])`.  The matrix is represented
row-major as a list of rows. -/
def designMatrix (H W : Nat) (rc cc : Nat → ℚ) (T : List (Nat × Nat)) :
    List (List ℚ) :=
  (List.range (H * W)).map fun m =>
    T.map fun ij => cheb ij.1 (rc (m / W)) * cheb ij.2 (cc (m % W))

/-- Lexicographic strict order on exponent pairs: the nested enumeration
order of main.py line 98 (outer `i` ascending, inner `j` ascending). -/
def termLt (p q : Nat × Nat) : Prop :=
  p.1 < q.1 ∨ (p.1 = q.1 ∧ p.2 < q.2)

/-- Rounding of main.py line 112: `coeffs = np.round(coeffs, 7)`, i.e.
each coefficient is replaced by the nearest multiple of `10^-7`.
(numpy breaks exact ties to even; Mathlib's `round` breaks them upward —
the two agree everywhere except at exact half-multiples.) -/
def round7 (x : ℚ) : ℚ := (round (x * 10 ^ 7) : ℚ) / 10 ^ 7

/-- Coefficient vector actually used after the least-squares solve. -/
def roundCoeffs (raw : List ℚ) : List ℚ := raw.map round7

/-- Dot product of a design-matrix row with a coefficient vector. -/
def dotProd (row β : List ℚ) : ℚ := ((row.zip β).map fun p => p.1 * p.2).sum

/-- Reconstruction of main.py line 114: `lut_approx = np.dot(X, coeffs)`
with the rounded coefficient vector (the flattened row-major list of the
reconstructed grid). -/
def lutApproxOf (X : List (List ℚ)) (raw : List ℚ) : List ℚ :=
  X.map fun row => dotProd row (roundCoeffs raw)

/-- Reported mean-squared error of main.py line 115:
`mse = np.mean((lut - lut_approx)**2)`. -/
def mseReport (lut : List ℚ) (X : List (List ℚ)) (raw : List ℚ) : ℚ :=
  (((lut.zip (lutApproxOf X raw)).map fun p => (p.1 - p.2) ^ 2).sum)
    / (lut.length : ℚ)

/-- Clipping of main.py line 116: `np.clip(lut_approx, 0, None)`. -/
def clip0 (v : List ℚ) : List ℚ := v.map fun x => max x 0

/-- Arguments handed to the structural-similarity computation in main.py
line 116: the original grid, the clipped reconstruction, and the dynamic
range.  The similarity metric itself is an external library function; the
claim is settled about the inputs it is given. -/
def ssimArgs (lut : List ℚ) (X : List (List ℚ)) (raw : List ℚ) (vmax : ℚ) :
    List ℚ × List ℚ × ℚ :=
  (lut, clip0 (lutApproxOf X raw), vmax)

/-- Leaf record returned by build_quadtree in main.py line 70: the tuple
`(i0, i1, j0, j1, a, b, c)` of an index range and its bilinear-plane
coefficients. -/
structure QRegion where
  i0 : Nat
  i1 : Nat
  j0 : Nat
  j1 : Nat
  a : ℚ
  b : ℚ
  c : ℚ
deriving DecidableEq

/-- Quadtree recursion of main.py lines 45-70.  The bilinear-plane fit of
`fit_bilinear_plane` (an `np.linalg.lstsq` call) and the local MSE
`np.mean((lut_region - predicted)**2)` are numerical functions of the
region only; they are passed in as parameters `fit` and `mse`, so the
theorems below hold for every such function.  The source guard is
`(i1 - i0 > 4 and j1 - j0 > 4) and mse_local > mse_threshold and
max_depth > 0`, and the recursive calls use `max_depth - 1`; here the
`max_depth > 0` conjunct is realized by the pattern match on the depth
(at depth 0 the guard is false and the node is a leaf), and the four
recursive calls enumerate the quadrants in the source's nested loop
order (`ii` outer, `jj` inner) with the same midpoints
`mid_i = (i0 + i1) // 2`, `mid_j = (j0 + j1) // 2`. -/
def build_quadtree (fit : Nat → Nat → Nat → Nat → ℚ × ℚ × ℚ)
    (mse : Nat → Nat → Nat → Nat → ℚ) (mseThreshold : ℚ)
    (i0 i1 j0 j1 : Nat) : Nat → List QRegion
  | 0 =>
    [⟨i0, i1, j0, j1, (fit i0 i1 j0 j1).1, (fit i0 i1 j0 j1).2.1,
      (fit i0 i1 j0 j1).2.2⟩]
  | d + 1 =>
    if (4 < i1 - i0 ∧ 4 < j1 - j0) ∧ mseThreshold < mse i0 i1 j0 j1 then
      build_quadtree fit mse mseThreshold i0 ((i0 + i1) / 2) j0 ((j0 + j1) / 2) d
      ++ build_quadtree fit mse mseThreshold i0 ((i0 + i1) / 2) ((j0 + j1) / 2) j1 d
      ++ build_quadtree fit mse mseThreshold ((i0 + i1) / 2) i1 j0 ((j0 + j1) / 2) d
      ++ build_quadtree fit mse mseThreshold ((i0 + i1) / 2) i1 ((j0 + j1) / 2) j1 d
    else
      [⟨i0, i1, j0, j1, (fit i0 i1 j0 j1).1, (fit i0 i1 j0 j1).2.1,
        (fit i0 i1 j0 j1).2.2⟩]

/-- Sample index `(x, y)` lies in the index range of a region. -/
def memR (reg : QRegion) (x y : Nat) : Prop :=
  reg.i0 ≤ x ∧ x < reg.i1 ∧ reg.j0 ≤ y ∧ y < reg.j1

/-- Two regions have disjoint index ranges. -/
def regDisjoint (r s : QRegion) : Prop :=
  ∀ x y, ¬(memR r x y ∧ memR s x y)

/-- Recursion depth of the deepest leaf of the quadtree: 0 when the node
is a leaf, one more than the deepest child otherwise.  It branches on
exactly the subdivision guard of build_quadtree. -/
def quadtreeDepth (mse : Nat → Nat → Nat → Nat → ℚ) (mseThreshold : ℚ)
    (i0 i1 j0 j1 : Nat) : Nat → Nat
  | 0 => 0
  | d + 1 =>
    if (4 < i1 - i0 ∧ 4 < j1 - j0) ∧ mseThreshold < mse i0 i1 j0 j1 then
      1 + max
        (max (quadtreeDepth mse mseThreshold i0 ((i0 + i1) / 2) j0 ((j0 + j1) / 2) d)
          (quadtreeDepth mse mseThreshold i0 ((i0 + i1) / 2) ((j0 + j1) / 2) j1 d))
        (max (quadtreeDepth mse mseThreshold ((i0 + i1) / 2) i1 j0 ((j0 + j1) / 2) d)
          (quadtreeDepth mse mseThreshold ((i0 + i1) / 2) i1 ((j0 + j1) / 2) j1 d))
    else 0

/-- Constant fit function used to instantiate witnesses. -/
def fit0 : Nat → Nat → Nat → Nat → ℚ × ℚ × ℚ := fun _ _ _ _ => (0, 0, 0)

/-- Constant local-MSE function used to instantiate witnesses. -/
def mse1 : Nat → Nat → Nat → Nat → ℚ := fun _ _ _ _ => 1

/-- Error raised by the text-path loader: `float(...)` raising ValueError
on a non-numeric token in main.py line 82. -/
inductive LoadError where
  | parseError
deriving DecidableEq

/-- Python `str.strip()` on a list of characters: remove leading and
trailing whitespace. -/
def trimChars (l : List Char) : List Char :=
  ((l.dropWhile Char.isWhitespace).reverse.dropWhile Char.isWhitespace).reverse

/-- Python `s.split(",")`: split at every comma, keeping empty pieces
(so the empty string yields one empty token). -/
def splitOnComma : List Char → List (List Char)
  | [] => [[]]
  | c :: rest =>
    match splitOnComma rest with
    | [] => [[]]
    | t :: ts => if c = ',' then [] :: t :: ts else (c :: t) :: ts

/-- Numeric value of a digit character. -/
def digitVal (c : Char) : Nat := c.toNat - '0'.toNat

/-- Value of a digit string read in base 10. -/
def natOfDigits (l : List Char) : Nat :=
  l.foldl (fun n c => 10 * n + digitVal c) 0

/-- Exponent digits with an optional sign, as accepted after `e`/`E` in a
Python float literal: at least one digit, all characters digits. -/
def parseSignedDigits (l : List Char) : Option ℤ :=
  match l with
  | '+' :: r =>
    if r ≠ [] ∧ r.all Char.isDigit then some ((natOfDigits r : ℤ)) else none
  | '-' :: r =>
    if r ≠ [] ∧ r.all Char.isDigit then some (-(natOfDigits r : ℤ)) else none
  | r =>
    if r ≠ [] ∧ r.all Char.isDigit then some ((natOfDigits r : ℤ)) else none

/-- Optional exponent suffix of a Python float literal: empty, or `e`/`E`
followed by signed digits. -/
def parseExpSuffix (l : List Char) : Option ℤ :=
  match l with
  | [] => some 0
  | 'e' :: r => parseSignedDigits r
  | 'E' :: r => parseSignedDigits r
  | _ => none

/-- Unsigned Python decimal float literal: `digits [. digits] [exp]` or
`. digits [exp]`, with at least one mantissa digit.  Returns its exact
rational value. -/
def pyFloatUnsigned (l : List Char) : Option ℚ :=
  match l.dropWhile Char.isDigit with
  | '.' :: r2 =>
    if l.takeWhile Char.isDigit = [] ∧ r2.takeWhile Char.isDigit = [] then
      none
    else
      (parseExpSuffix (r2.dropWhile Char.isDigit)).map fun e =>
        ((natOfDigits (l.takeWhile Char.isDigit) : ℚ)
          + (natOfDigits (r2.takeWhile Char.isDigit) : ℚ)
            / 10 ^ (r2.takeWhile Char.isDigit).length) * 10 ^ e
  | r1 =>
    if l.takeWhile Char.isDigit = [] then none
    else
      (parseExpSuffix r1).map fun e =>
        (natOfDigits (l.takeWhile Char.isDigit) : ℚ) * 10 ^ e

/-- Python `float(token)` on a finite decimal literal with optional sign,
modelling the conversion in main.py line 82; `none` models the ValueError
on a non-numeric token. -/
def pyFloat (l : List Char) : Option ℚ :=
  match l with
  | '+' :: r => pyFloatUnsigned r
  | '-' :: r => (pyFloatUnsigned r).map Neg.neg
  | _ => pyFloatUnsigned l

/-- Comma-separated tokens of the text input, produced exactly as in
main.py lines 81-82: `content.strip()[1:-1].split(",")` — the first and
last characters of the stripped content are removed unconditionally
(no check that they are brackets). -/
def textTokens (content : String) : List (List Char) :=
  splitOnComma (((trimChars content.toList).drop 1).dropLast)

/-- Left-to-right conversion of the tokens, failing on the first token
`float(val.strip())` rejects — main.py line 82. -/
def parseAll : List (List Char) → Except LoadError (List ℚ)
  | [] => Except.ok []
  | t :: ts =>
    match pyFloat (trimChars t) with
    | none => Except.error LoadError.parseError
    | some q =>
      match parseAll ts with
      | Except.error e => Except.error e
      | Except.ok qs => Except.ok (q :: qs)

/-- Text-path Sample Loader of main.py lines 77-82 (flattened value list;
the 128×128 reshape is a separate step). -/
def loadText (content : String) : Except LoadError (List ℚ) :=
  parseAll (textTokens content)

/-- Boolean success test for an Except value. -/
def isOkB {ε α : Type} : Except ε α → Bool
  | Except.ok _ => true
  | Except.error _ => false

/-- Errors of read_dds_rgba16f: the two `ValueError`s of
thirdparty/read_dds.py ("Invalid DDS" and "Incomplete file"). -/
inductive DDSError where
  | invalidDDS
  | incompleteData
deriving DecidableEq

/-- The magic bytes `b'DDS '` checked at thirdparty/read_dds.py line 9. -/
def ddsMagic : List Nat := [68, 68, 83, 32]

/-- Binary reader of thirdparty/read_dds.py lines 4-23, over the file's
byte list.  `header = f.read(128)` is the first (up to) 128 bytes;
`width`, `height`, `channels`, `bytes_per_channel` are hardcoded
constants (the header is only consulted for its first 4 magic bytes);
`pixel_data = f.read(total_bytes)` reads at most `total_bytes` further
bytes, and only a shortfall is rejected. -/
def read_dds_rgba16f (bs : List Nat) :
    Except DDSError (List Nat × Nat × Nat) :=
  let header := bs.take 128
  if header.take 4 = ddsMagic then
    let width := 128
    let height := 128
    let channels := 4
    let bytesPerChannel := 2
    let totalBytes := width * height * channels * bytesPerChannel
    let pixelData := (bs.drop 128).take totalBytes
    if pixelData.length < totalBytes then Except.error DDSError.incompleteData
    else Except.ok (pixelData, width, height)
  else Except.error DDSError.invalidDDS

/-- Coordinate lookup built from the linspace array, as the design-matrix
construction of main.py indexes the `r`/`c` arrays of lines 93-94. -/
def lsCoordOf (n : Nat) : Nat → ℚ := fun k => (linspace01 n).getD k 0

/-- Residual sum of squares `‖X·β - y‖²`: the objective minimized by the
`np.linalg.lstsq` call of main.py line 111. -/
def sse (X : List (List ℚ)) (y β : List ℚ) : ℚ :=
  ((X.zip y).map fun p => (p.2 - dotProd p.1 β) ^ 2).sum

/-- Mean squared error of a coefficient vector over a target vector,
`np.mean((lut - X·β)**2)`. -/
def mseOfFit (X : List (List ℚ)) (y β : List ℚ) : ℚ :=
  sse X y β / ((y.length : Nat) : ℚ)

/-- β is a linear least-squares solution for the system `(X, y)` with `n`
unknowns: it has length `n` and minimizes the residual sum of squares.
`np.linalg.lstsq` returns such a minimizer (the minimum-norm one). -/
def IsLstsqSol (n : Nat) (X : List (List ℚ)) (y β : List ℚ) : Prop :=
  β.length = n ∧ ∀ γ : List ℚ, γ.length = n → sse X y β ≤ sse X y γ

/-- Value of an Except, with a default for the error case. -/
def okD {ε α : Type} (e : Except ε α) (d : α) : α :=
  match e with
  | Except.ok a => a
  | Except.error _ => d

lemma sum_range_list_eq_finset (n : Nat) (f : Nat → Nat) :
    ((List.range n).map f).sum = ∑ i ∈ Finset.range n, f i := rfl

lemma terms_length (D : Nat) : 2 * (terms D).length = (D + 1) * (D + 2) := by
  have h1 : (terms D).length = ∑ i ∈ Finset.range (D + 1), (D - i + 1) := by
    rw [terms, List.length_flatMap, ← sum_range_list_eq_finset]
    congr 1
    apply List.map_congr_left
    intro i _
    simp
  have h2 : ∑ i ∈ Finset.range (D + 1), (D - i + 1) =
      ∑ i ∈ Finset.range (D + 1), (i + 1) := by
    have := Finset.sum_range_reflect (fun j => j + 1) (D + 1)
    rw [← this]
    apply Finset.sum_congr rfl
    intro i hi
    rw [Finset.mem_range] at hi
    omega
  have h3 := Finset.sum_range_id_mul_two (D + 2)
  have h4 : ∑ i ∈ Finset.range (D + 2), i =
      ∑ i ∈ Finset.range (D + 1), (i + 1) := by
    rw [Finset.sum_range_succ']
    simp
  rw [h1, h2, ← h4]
  have h5 : D + 2 - 1 = D + 1 := by omega
  rw [h5] at h3
  linarith [h3, Nat.mul_comm (D + 2) (D + 1)]

lemma terms_mem (D i j : Nat) : (i, j) ∈ terms D ↔ i + j ≤ D := by
  simp only [terms, List.mem_flatMap, List.mem_map, List.mem_range]
  constructor
  · rintro ⟨a, ha, b, hb, hab⟩
    obtain ⟨rfl, rfl⟩ := Prod.mk.injEq a b i j ▸ hab
    omega
  · intro h
    exact ⟨i, by omega, j, by omega, rfl⟩

lemma terms_sorted (D : Nat) : List.Pairwise termLt (terms D) := by
  rw [terms, List.pairwise_flatMap]
  constructor
  · intro a _
    rw [List.pairwise_map]
    exact (List.pairwise_lt_range _).imp fun h => Or.inr ⟨rfl, h⟩
  · exact (List.pairwise_lt_range _).imp fun hab => by
      intro x hx y hy
      simp only [List.mem_map, List.mem_range] at hx hy
      obtain ⟨b1, _, rfl⟩ := hx
      obtain ⟨b2, _, rfl⟩ := hy
      exact Or.inl hab

/-- C1: the basis enumeration for maximum total degree `D` produces exactly
the pairs `(i, j)` with `i + j ≤ D`, listed in the nested order with outer
index `i` ascending and inner index `j` ascending (strict lexicographic
order along the list), it has exactly `(D+1)(D+2)/2` elements (stated
multiplied by 2 to stay in Nat), and its elements are pairwise distinct. -/
theorem terms_triangular_enumeration (D : Nat) :
    (∀ i j : Nat, (i, j) ∈ terms D ↔ i + j ≤ D)
    ∧ 2 * (terms D).length = (D + 1) * (D + 2)
    ∧ List.Pairwise termLt (terms D)
    ∧ (terms D).Nodup := by
  refine ⟨terms_mem D, terms_length D, terms_sorted D, ?_⟩
  refine (terms_sorted D).imp ?_
  intro p q hpq hne
  rcases hpq with h | ⟨h1, h2⟩
  · exact absurd (congrArg Prod.fst hne) (Nat.ne_of_lt h)
  · exact absurd (congrArg Prod.snd hne) (Nat.ne_of_lt h2)

lemma getD_map_range {α : Type} (n m : Nat) (f : Nat → α) (d : α) (hm : m < n) :
    ((List.range n).map f).getD m d = f m := by
  rw [List.getD_eq_getElem?_getD, List.getElem?_map, List.getElem?_range hm]
  rfl

/-- C2: the design matrix for an `H×W` grid and term list `T` has `H*W`
rows and `|T|` columns, and the entry in flattened row `r*W + c`,
column `k`, for term `(i, j)` at position `k` of `T`, is
`T_i(rowCoord r) * T_j(colCoord c)` — so matrix rows correspond
index-for-index to the row-major flattening of the grid. -/
theorem designMatrix_shape_entries (H W : Nat) (rc cc : Nat → ℚ)
    (T : List (Nat × Nat)) (r c k i j : Nat)
    (hr : r < H) (hc : c < W) (hk : k < T.length)
    (hij : T.getD k (0, 0) = (i, j)) :
    (designMatrix H W rc cc T).length = H * W
    ∧ (∀ row ∈ designMatrix H W rc cc T, row.length = T.length)
    ∧ ((designMatrix H W rc cc T).getD (r * W + c) []).getD k 0
        = cheb i (rc r) * cheb j (cc c) := by
  have hW : 0 < W := by omega
  refine ⟨by simp [designMatrix], ?_, ?_⟩
  · intro row hrow
    simp only [designMatrix, List.mem_map, List.mem_range] at hrow
    obtain ⟨m, _, rfl⟩ := hrow
    simp
  · have hm : r * W + c < H * W := by
      have h1 : r * W + c < (r + 1) * W := by
        have : (r + 1) * W = r * W + W := by ring
        omega
      have h2 : (r + 1) * W ≤ H * W := Nat.mul_le_mul_right W hr
      omega
    rw [designMatrix, getD_map_range _ _ _ _ hm]
    have hdiv : (r * W + c) / W = r := by
      rw [Nat.mul_comm r W, Nat.add_comm, Nat.add_mul_div_left c r hW,
        Nat.div_eq_of_lt hc]
      omega
    have hmod : (r * W + c) % W = c := by
      rw [Nat.mul_comm r W, Nat.add_comm, Nat.add_mul_mod_self_left,
        Nat.mod_eq_of_lt hc]
    rw [hdiv, hmod]
    rw [List.getD_eq_getElem?_getD, List.getElem?_map,
      List.getElem?_eq_getElem hk]
    have : T[k] = (i, j) := by
      rw [List.getD_eq_getElem?_getD, List.getElem?_eq_getElem hk] at hij
      exact hij
    rw [this]
    rfl

theorem designMatrix_shape_entries_witness :
    (designMatrix 2 3 (fun n => (n : ℚ)) (fun n => (n : ℚ)) (terms 2)).length
        = 2 * 3
    ∧ (∀ row ∈ designMatrix 2 3 (fun n => (n : ℚ)) (fun n => (n : ℚ)) (terms 2),
        row.length = (terms 2).length)
    ∧ ((designMatrix 2 3 (fun n => (n : ℚ)) (fun n => (n : ℚ))
          (terms 2)).getD (1 * 3 + 2) []).getD 4 0
        = cheb 1 (((1 : Nat) : ℚ)) * cheb 1 (((2 : Nat) : ℚ)) :=
  designMatrix_shape_entries 2 3 (fun n => (n : ℚ)) (fun n => (n : ℚ))
    (terms 2) 1 2 4 1 1 (by decide) (by decide) (by decide) (by decide)

/-- C8: the normalized coordinate sequence for dimension `n > 1` has
exactly `n` values, starts at 0, ends at 1, is strictly increasing, and
consecutive values differ by the constant step `1 / (n - 1)` (even
spacing). -/
theorem linspace01_spec (n : Nat) (hn : 1 < n) :
    (linspace01 n).length = n
    ∧ (linspace01 n).getD 0 0 = 0
    ∧ (linspace01 n).getD (n - 1) 0 = 1
    ∧ List.Pairwise (fun a b : ℚ => a < b) (linspace01 n)
    ∧ ∀ k, k + 1 < n →
        (linspace01 n).getD (k + 1) 0 - (linspace01 n).getD k 0
          = 1 / ((n : ℚ) - 1) := by
  have hpos : (0 : ℚ) < (n : ℚ) - 1 := by
    have : (2 : ℚ) ≤ (n : ℚ) := by exact_mod_cast hn
    linarith
  have hget : ∀ m, m < n → (linspace01 n).getD m 0 = (m : ℚ) / ((n : ℚ) - 1) :=
    fun m hm => getD_map_range n m _ 0 hm
  refine ⟨by rw [linspace01, List.length_map, List.length_range], ?_, ?_, ?_, ?_⟩
  · rw [hget 0 (by omega)]
    simp
  · rw [hget (n - 1) (by omega)]
    have hcast : ((n - 1 : Nat) : ℚ) = (n : ℚ) - 1 := by
      have h1 : 1 ≤ n := by omega
      push_cast [h1]
      ring
    rw [hcast, div_self (ne_of_gt hpos)]
  · rw [linspace01, List.pairwise_map]
    refine (List.pairwise_lt_range n).imp ?_
    intro a b hab
    have hab' : (a : ℚ) < (b : ℚ) := by exact_mod_cast hab
    gcongr
  · intro k hk
    rw [hget (k + 1) (by omega), hget k (by omega), div_sub_div_same]
    push_cast
    ring_nf

theorem linspace01_spec_witness :
    (linspace01 3).length = 3
    ∧ (linspace01 3).getD 0 0 = 0
    ∧ (linspace01 3).getD (3 - 1) 0 = 1
    ∧ List.Pairwise (fun a b : ℚ => a < b) (linspace01 3)
    ∧ ∀ k, k + 1 < 3 →
        (linspace01 3).getD (k + 1) 0 - (linspace01 3).getD k 0
          = 1 / (((3 : Nat) : ℚ) - 1) :=
  linspace01_spec 3 (by decide)

lemma round_nearest_int (y : ℚ) (m : ℤ) :
    |y - (round y : ℚ)| ≤ |y - (m : ℚ)| := by
  rcases eq_or_ne m (round y) with rfl | hne
  · exact le_of_eq rfl
  · have h1 : |y - (round y : ℚ)| ≤ 1 / 2 := abs_sub_round y
    have h2 : (1 : ℚ) ≤ |(round y : ℚ) - (m : ℚ)| := by
      have hz : round y - m ≠ 0 := sub_ne_zero.mpr (Ne.symm hne)
      have := Int.one_le_abs hz
      calc (1 : ℚ) = ((1 : ℤ) : ℚ) := by norm_num
        _ ≤ ((|round y - m| : ℤ) : ℚ) := by exact_mod_cast this
        _ = |(round y : ℚ) - (m : ℚ)| := by push_cast; ring_nf
    have h3 : |(round y : ℚ) - (m : ℚ)|
        ≤ |y - (round y : ℚ)| + |y - (m : ℚ)| := by
      have : (round y : ℚ) - m = (y - m) - (y - round y) := by ring
      rw [this]
      calc |(y - (m : ℚ)) - (y - (round y : ℚ))|
          ≤ |y - (m : ℚ)| + |y - (round y : ℚ)| := abs_sub _ _
        _ = |y - (round y : ℚ)| + |y - (m : ℚ)| := by ring
    linarith

lemma round7_nearest (x : ℚ) (m : ℤ) :
    |x - round7 x| ≤ |x - (m : ℚ) / 10 ^ 7| := by
  have hs : (0 : ℚ) < 10 ^ 7 := by norm_num
  have h1 : x - round7 x = (x * 10 ^ 7 - round (x * 10 ^ 7)) / 10 ^ 7 := by
    rw [round7]
    field_simp
  have h2 : x - (m : ℚ) / 10 ^ 7 = (x * 10 ^ 7 - m) / 10 ^ 7 := by
    field_simp
  rw [h1, h2, abs_div, abs_div, abs_of_pos hs]
  exact div_le_div_of_nonneg_right (round_nearest_int (x * 10 ^ 7) m) hs.le

/-- C10: every quantity reported after the least-squares solve — the
reconstructed grid, the mean-squared error, and the inputs of the
structural-similarity computation — is a function of the rounded
coefficient vector only (two raw solutions with the same rounding give
identical results), each used coefficient is an integer multiple of
`10^-7`, and the rounding is to a nearest multiple of `10^-7`. -/
theorem coeffs_rounded_before_use (lut : List ℚ) (X : List (List ℚ))
    (vmax : ℚ) (raw raw' : List ℚ)
    (h : roundCoeffs raw = roundCoeffs raw') :
    lutApproxOf X raw = lutApproxOf X raw'
    ∧ mseReport lut X raw = mseReport lut X raw'
    ∧ ssimArgs lut X raw vmax = ssimArgs lut X raw' vmax
    ∧ (∀ x ∈ roundCoeffs raw, ∃ m : ℤ, x = (m : ℚ) / 10 ^ 7)
    ∧ ∀ x : ℚ, ∀ m : ℤ, |x - round7 x| ≤ |x - (m : ℚ) / 10 ^ 7| := by
  have happrox : lutApproxOf X raw = lutApproxOf X raw' := by
    rw [lutApproxOf, lutApproxOf, h]
  refine ⟨happrox, ?_, ?_, ?_, fun x m => round7_nearest x m⟩
  · rw [mseReport, mseReport, happrox]
  · rw [ssimArgs, ssimArgs, happrox]
  · intro x hx
    rw [roundCoeffs, List.mem_map] at hx
    obtain ⟨y, _, rfl⟩ := hx
    exact ⟨round (y * 10 ^ 7), rfl⟩

theorem coeffs_rounded_before_use_witness :
    lutApproxOf [] [1] = lutApproxOf [] [1]
    ∧ mseReport [] [] [1] = mseReport [] [] [1]
    ∧ ssimArgs [] [] [1] 0 = ssimArgs [] [] [1] 0
    ∧ (∀ x ∈ roundCoeffs [1], ∃ m : ℤ, x = (m : ℚ) / 10 ^ 7)
    ∧ ∀ x : ℚ, ∀ m : ℤ, |x - round7 x| ≤ |x - (m : ℚ) / 10 ^ 7| :=
  coeffs_rounded_before_use [] [] 0 [1] [1] rfl

lemma quadtree_cover (fit : Nat → Nat → Nat → Nat → ℚ × ℚ × ℚ)
    (mse : Nat → Nat → Nat → Nat → ℚ) (thr : ℚ) :
    ∀ (d i0 i1 j0 j1 x y : Nat),
      (i0 ≤ x ∧ x < i1 ∧ j0 ≤ y ∧ y < j1) ↔
        ∃ reg ∈ build_quadtree fit mse thr i0 i1 j0 j1 d, memR reg x y := by
  intro d
  induction d with
  | zero =>
    intro i0 i1 j0 j1 x y
    simp [build_quadtree, memR]
  | succ d ih =>
    intro i0 i1 j0 j1 x y
    rw [build_quadtree]
    by_cases hc : (4 < i1 - i0 ∧ 4 < j1 - j0) ∧ thr < mse i0 i1 j0 j1
    · have h41 := hc.1.1
      have h42 := hc.1.2
      rw [if_pos hc]
      simp only [List.mem_append, List.append_assoc]
      constructor
      · intro hbox
        by_cases hx : x < (i0 + i1) / 2
        · by_cases hy : y < (j0 + j1) / 2
          · obtain ⟨reg, hreg, hmem⟩ :=
              (ih i0 ((i0 + i1) / 2) j0 ((j0 + j1) / 2) x y).mp (by omega)
            exact ⟨reg, Or.inl hreg, hmem⟩
          · obtain ⟨reg, hreg, hmem⟩ :=
              (ih i0 ((i0 + i1) / 2) ((j0 + j1) / 2) j1 x y).mp (by omega)
            exact ⟨reg, Or.inr (Or.inl hreg), hmem⟩
        · by_cases hy : y < (j0 + j1) / 2
          · obtain ⟨reg, hreg, hmem⟩ :=
              (ih ((i0 + i1) / 2) i1 j0 ((j0 + j1) / 2) x y).mp (by omega)
            exact ⟨reg, Or.inr (Or.inr (Or.inl hreg)), hmem⟩
          · obtain ⟨reg, hreg, hmem⟩ :=
              (ih ((i0 + i1) / 2) i1 ((j0 + j1) / 2) j1 x y).mp (by omega)
            exact ⟨reg, Or.inr (Or.inr (Or.inr hreg)), hmem⟩
      · rintro ⟨reg, hreg, hmem⟩
        rcases hreg with h1 | h2 | h3 | h4
        · have := (ih i0 ((i0 + i1) / 2) j0 ((j0 + j1) / 2) x y).mpr
            ⟨reg, h1, hmem⟩
          omega
        · have := (ih i0 ((i0 + i1) / 2) ((j0 + j1) / 2) j1 x y).mpr
            ⟨reg, h2, hmem⟩
          omega
        · have := (ih ((i0 + i1) / 2) i1 j0 ((j0 + j1) / 2) x y).mpr
            ⟨reg, h3, hmem⟩
          omega
        · have := (ih ((i0 + i1) / 2) i1 ((j0 + j1) / 2) j1 x y).mpr
            ⟨reg, h4, hmem⟩
          omega
    · rw [if_neg hc]
      simp [memR]

lemma quadtree_sub (fit : Nat → Nat → Nat → Nat → ℚ × ℚ × ℚ)
    (mse : Nat → Nat → Nat → Nat → ℚ) (thr : ℚ)
    (d i0 i1 j0 j1 : Nat) (reg : QRegion)
    (hreg : reg ∈ build_quadtree fit mse thr i0 i1 j0 j1 d) (x y : Nat)
    (hmem : memR reg x y) : i0 ≤ x ∧ x < i1 ∧ j0 ≤ y ∧ y < j1 :=
  (quadtree_cover fit mse thr d i0 i1 j0 j1 x y).mpr ⟨reg, hreg, hmem⟩

lemma quadtree_disjoint (fit : Nat → Nat → Nat → Nat → ℚ × ℚ × ℚ)
    (mse : Nat → Nat → Nat → Nat → ℚ) (thr : ℚ) :
    ∀ (d i0 i1 j0 j1 : Nat),
      List.Pairwise regDisjoint (build_quadtree fit mse thr i0 i1 j0 j1 d) := by
  intro d
  induction d with
  | zero =>
    intro i0 i1 j0 j1
    simp [build_quadtree]
  | succ d ih =>
    intro i0 i1 j0 j1
    rw [build_quadtree]
    by_cases hc : (4 < i1 - i0 ∧ 4 < j1 - j0) ∧ thr < mse i0 i1 j0 j1
    · rw [if_pos hc]
      have cross : ∀ (a0 a1 b0 b1 c0 c1 e0 e1 : Nat),
          (∀ x y, ¬(a0 ≤ x ∧ x < a1 ∧ b0 ≤ y ∧ y < b1
            ∧ c0 ≤ x ∧ x < c1 ∧ e0 ≤ y ∧ y < e1)) →
          ∀ r ∈ build_quadtree fit mse thr a0 a1 b0 b1 d,
          ∀ s ∈ build_quadtree fit mse thr c0 c1 e0 e1 d,
            regDisjoint r s := by
        intro a0 a1 b0 b1 c0 c1 e0 e1 hdisj r hr s hs x y hxy
        have h1 := quadtree_sub fit mse thr d a0 a1 b0 b1 r hr x y hxy.1
        have h2 := quadtree_sub fit mse thr d c0 c1 e0 e1 s hs x y hxy.2
        exact hdisj x y ⟨h1.1, h1.2.1, h1.2.2.1, h1.2.2.2,
          h2.1, h2.2.1, h2.2.2.1, h2.2.2.2⟩
      rw [List.pairwise_append]
      refine ⟨?_, ih _ _ _ _, ?_⟩
      · rw [List.pairwise_append]
        refine ⟨?_, ih _ _ _ _, ?_⟩
        · rw [List.pairwise_append]
          exact ⟨ih _ _ _ _, ih _ _ _ _,
            cross _ _ _ _ _ _ _ _ (by intro x y; omega)⟩
        · intro a ha b hb
          rcases List.mem_append.mp ha with ha1 | ha2
          · exact cross _ _ _ _ _ _ _ _ (by intro x y; omega) a ha1 b hb
          · exact cross _ _ _ _ _ _ _ _ (by intro x y; omega) a ha2 b hb
      · intro a ha b hb
        rcases List.mem_append.mp ha with ha' | ha3
        · rcases List.mem_append.mp ha' with ha1 | ha2
          · exact cross _ _ _ _ _ _ _ _ (by intro x y; omega) a ha1 b hb
          · exact cross _ _ _ _ _ _ _ _ (by intro x y; omega) a ha2 b hb
        · exact cross _ _ _ _ _ _ _ _ (by intro x y; omega) a ha3 b hb
    · rw [if_neg hc]
      simp

lemma quadtreeDepth_le (mse : Nat → Nat → Nat → Nat → ℚ) (thr : ℚ) :
    ∀ (d i0 i1 j0 j1 : Nat), quadtreeDepth mse thr i0 i1 j0 j1 d ≤ d := by
  intro d
  induction d with
  | zero => intro i0 i1 j0 j1; rw [quadtreeDepth]
  | succ d ih =>
    intro i0 i1 j0 j1
    rw [quadtreeDepth]
    by_cases hc : (4 < i1 - i0 ∧ 4 < j1 - j0) ∧ thr < mse i0 i1 j0 j1
    · rw [if_pos hc]
      have h1 := ih i0 ((i0 + i1) / 2) j0 ((j0 + j1) / 2)
      have h2 := ih i0 ((i0 + i1) / 2) ((j0 + j1) / 2) j1
      have h3 := ih ((i0 + i1) / 2) i1 j0 ((j0 + j1) / 2)
      have h4 := ih ((i0 + i1) / 2) i1 ((j0 + j1) / 2) j1
      omega
    · rw [if_neg hc]
      omega

/-- C3: for every index range, depth budget, threshold, and every numeric
fit/MSE function, the leaves of the quadtree partition the range exactly
(every sample index of the range lies in some leaf and only indices of the
range do; distinct leaves are disjoint), a subdivided node contributes
exactly the four quadrant subtrees in the source's order, and the
recursion depth of the deepest leaf is at most `maxDepth`. -/
theorem quadtree_partition (fit : Nat → Nat → Nat → Nat → ℚ × ℚ × ℚ)
    (mse : Nat → Nat → Nat → Nat → ℚ) (thr : ℚ)
    (i0 i1 j0 j1 d : Nat) (_hi : i0 < i1) (_hj : j0 < j1) :
    (∀ x y, (i0 ≤ x ∧ x < i1 ∧ j0 ≤ y ∧ y < j1) ↔
        ∃ reg ∈ build_quadtree fit mse thr i0 i1 j0 j1 d, memR reg x y)
    ∧ List.Pairwise regDisjoint (build_quadtree fit mse thr i0 i1 j0 j1 d)
    ∧ (∀ d' : Nat, d = d' + 1 →
        ((4 < i1 - i0 ∧ 4 < j1 - j0) ∧ thr < mse i0 i1 j0 j1) →
        build_quadtree fit mse thr i0 i1 j0 j1 d =
          build_quadtree fit mse thr i0 ((i0 + i1) / 2) j0 ((j0 + j1) / 2) d'
          ++ build_quadtree fit mse thr i0 ((i0 + i1) / 2) ((j0 + j1) / 2) j1 d'
          ++ build_quadtree fit mse thr ((i0 + i1) / 2) i1 j0 ((j0 + j1) / 2) d'
          ++ build_quadtree fit mse thr ((i0 + i1) / 2) i1 ((j0 + j1) / 2) j1 d')
    ∧ quadtreeDepth mse thr i0 i1 j0 j1 d ≤ d := by
  refine ⟨fun x y => quadtree_cover fit mse thr d i0 i1 j0 j1 x y,
    quadtree_disjoint fit mse thr d i0 i1 j0 j1, ?_,
    quadtreeDepth_le mse thr d i0 i1 j0 j1⟩
  rintro d' rfl hc
  rw [build_quadtree, if_pos hc]

theorem quadtree_partition_witness :
    (∀ x y, (0 ≤ x ∧ x < 8 ∧ 0 ≤ y ∧ y < 8) ↔
        ∃ reg ∈ build_quadtree fit0 mse1 0 0 8 0 8 2, memR reg x y)
    ∧ List.Pairwise regDisjoint (build_quadtree fit0 mse1 0 0 8 0 8 2)
    ∧ (∀ d' : Nat, 2 = d' + 1 →
        ((4 < 8 - 0 ∧ 4 < 8 - 0) ∧ 0 < mse1 0 8 0 8) →
        build_quadtree fit0 mse1 0 0 8 0 8 2 =
          build_quadtree fit0 mse1 0 0 ((0 + 8) / 2) 0 ((0 + 8) / 2) d'
          ++ build_quadtree fit0 mse1 0 0 ((0 + 8) / 2) ((0 + 8) / 2) 8 d'
          ++ build_quadtree fit0 mse1 0 ((0 + 8) / 2) 8 0 ((0 + 8) / 2) d'
          ++ build_quadtree fit0 mse1 0 ((0 + 8) / 2) 8 ((0 + 8) / 2) 8 d')
    ∧ quadtreeDepth mse1 0 0 8 0 8 2 ≤ 2 :=
  quadtree_partition fit0 mse1 0 0 8 0 8 2 (by decide) (by decide)

/-- C4 counterexample: over the full grid `[0,8)×[0,8)` with an
always-subdividing MSE function, depth budget 1, the quadtree contains the
leaf `[0,4)×[0,4)` whose sides are both `≤ 4` and which is not the whole
grid: the code's guard subdivides whenever both sides exceed 4, so leaves
with side exactly 4 (and, for odd sizes, as small as 2) do occur. -/
theorem quadtree_small_leaf_exists :
    ∃ reg ∈ build_quadtree fit0 mse1 0 0 8 0 8 1,
      (reg.i1 - reg.i0 ≤ 4 ∨ reg.j1 - reg.j0 ≤ 4)
      ∧ ¬(reg.i0 = 0 ∧ reg.i1 = 8 ∧ reg.j0 = 0 ∧ reg.j1 = 8) := by
  refine ⟨⟨0, 4, 0, 4, 0, 0, 0⟩, ?_, by decide, by decide⟩
  rw [show (1 : Nat) = 0 + 1 from rfl, build_quadtree, if_pos (by decide)]
  simp [build_quadtree, fit0]

/-- C4 amended: the subdivision guard requires both side lengths to
exceed 4, so a region with either side `≤ 4` is always returned as a
single leaf (never subdivided); consequently every leaf of a quadtree is
either the initial region itself or has both side lengths at least 2
(each half of a subdivided side of length `≥ 5` has length `≥ 2`).
Leaves with a side of exactly 4 — or, for odd region sizes, as small
as 2 — do occur, so "no leaf smaller than 4×4" does not hold. -/
theorem quadtree_min_leaf_size (fit : Nat → Nat → Nat → Nat → ℚ × ℚ × ℚ)
    (mse : Nat → Nat → Nat → Nat → ℚ) (thr : ℚ) (i0 i1 j0 j1 d : Nat) :
    ((i1 - i0 ≤ 4 ∨ j1 - j0 ≤ 4) →
      build_quadtree fit mse thr i0 i1 j0 j1 d =
        [⟨i0, i1, j0, j1, (fit i0 i1 j0 j1).1, (fit i0 i1 j0 j1).2.1,
          (fit i0 i1 j0 j1).2.2⟩])
    ∧ ∀ reg ∈ build_quadtree fit mse thr i0 i1 j0 j1 d,
        (reg.i0 = i0 ∧ reg.i1 = i1 ∧ reg.j0 = j0 ∧ reg.j1 = j1)
        ∨ (2 ≤ reg.i1 - reg.i0 ∧ 2 ≤ reg.j1 - reg.j0) := by
  constructor
  · intro hsmall
    cases d with
    | zero => rw [build_quadtree]
    | succ d =>
      rw [build_quadtree, if_neg ?_]
      rintro ⟨⟨h1, h2⟩, -⟩
      omega
  · induction d generalizing i0 i1 j0 j1 with
    | zero =>
      intro reg hreg
      rw [build_quadtree] at hreg
      simp at hreg
      subst hreg
      exact Or.inl ⟨rfl, rfl, rfl, rfl⟩
    | succ d ih =>
      intro reg hreg
      rw [build_quadtree] at hreg
      by_cases hc : (4 < i1 - i0 ∧ 4 < j1 - j0) ∧ thr < mse i0 i1 j0 j1
      · have h41 := hc.1.1
        have h42 := hc.1.2
        rw [if_pos hc] at hreg
        simp only [List.mem_append, List.append_assoc] at hreg
        have hmid1 : 2 ≤ (i0 + i1) / 2 - i0 := by omega
        have hmid2 : 2 ≤ i1 - (i0 + i1) / 2 := by omega
        have hmid3 : 2 ≤ (j0 + j1) / 2 - j0 := by omega
        have hmid4 : 2 ≤ j1 - (j0 + j1) / 2 := by omega
        rcases hreg with h1 | h2 | h3 | h4
        · rcases ih _ _ _ _ reg h1 with he | hs
          · right; omega
          · exact Or.inr hs
        · rcases ih _ _ _ _ reg h2 with he | hs
          · right; omega
          · exact Or.inr hs
        · rcases ih _ _ _ _ reg h3 with he | hs
          · right; omega
          · exact Or.inr hs
        · rcases ih _ _ _ _ reg h4 with he | hs
          · right; omega
          · exact Or.inr hs
      · rw [if_neg hc] at hreg
        simp at hreg
        subst hreg
        exact Or.inl ⟨rfl, rfl, rfl, rfl⟩

theorem quadtree_min_leaf_size_witness :
    ((8 - 0 ≤ 4 ∨ 8 - 0 ≤ 4) →
      build_quadtree fit0 mse1 0 0 8 0 8 1 =
        [⟨0, 8, 0, 8, (fit0 0 8 0 8).1, (fit0 0 8 0 8).2.1,
          (fit0 0 8 0 8).2.2⟩])
    ∧ ∀ reg ∈ build_quadtree fit0 mse1 0 0 8 0 8 1,
        (reg.i0 = 0 ∧ reg.i1 = 8 ∧ reg.j0 = 0 ∧ reg.j1 = 8)
        ∨ (2 ≤ reg.i1 - reg.i0 ∧ 2 ≤ reg.j1 - reg.j0) :=
  quadtree_min_leaf_size fit0 mse1 0 0 8 0 8 1

lemma parseAll_error_iff (ts : List (List Char)) :
    parseAll ts = Except.error LoadError.parseError ↔
      ∃ t ∈ ts, pyFloat (trimChars t) = none := by
  induction ts with
  | nil => simp [parseAll]
  | cons t ts ih =>
    rw [parseAll]
    rcases hp : pyFloat (trimChars t) with - | q
    · simp only [hp]
      exact ⟨fun _ => ⟨t, List.mem_cons_self t ts, hp⟩, fun _ => trivial⟩
    · simp only [hp]
      rcases hr : parseAll ts with e | qs
      · cases e
        simp only []
        constructor
        · intro _
          obtain ⟨x, hx, hbad⟩ := ih.mp hr
          exact ⟨x, List.mem_cons_of_mem t hx, hbad⟩
        · intro _
          trivial
      · simp only []
        constructor
        · intro h
          exact absurd h (by simp)
        · rintro ⟨x, hx, hbad⟩
          rcases List.mem_cons.mp hx with rfl | hx'
          · rw [hp] at hbad
            exact absurd hbad (by simp)
          · have hts := ih.mpr ⟨x, hx', hbad⟩
            rw [hts] at hr
            exact absurd hr (by simp)

/-- C6 amended: the text loader fails with ParseError exactly when some
comma-separated token of the bracket-stripped content is not a numeric
literal.  Enclosing brackets are never validated: the first and last
characters of the stripped content are removed unconditionally, so
missing or mismatched brackets do not by themselves cause a ParseError. -/
theorem loadText_parseError_iff (content : String) :
    loadText content = Except.error LoadError.parseError ↔
      ∃ t ∈ textTokens content, pyFloat (trimChars t) = none :=
  parseAll_error_iff (textTokens content)

/-- C6 counterexample: the input `"0.0, 1.0, 1.0, 0.0"` has no enclosing
brackets at all, yet the loader succeeds (no ParseError): the parser
drops the first and last characters blindly, leaving the numeric tokens
`.0`, `1.0`, `1.0`, `0.`, all of which Python's float accepts. -/
theorem loadText_missing_brackets_ok :
    isOkB (loadText "0.0, 1.0, 1.0, 0.0") = true
    ∧ loadText "0.0, 1.0, 1.0, 0.0" ≠ Except.error LoadError.parseError := by
  have h1 : isOkB (loadText "0.0, 1.0, 1.0, 0.0") = true := by decide
  refine ⟨h1, fun h => ?_⟩
  rw [h] at h1
  simp [isOkB] at h1

theorem loadText_parseError_iff_witness :
    loadText "[a]" = Except.error LoadError.parseError ↔
      ∃ t ∈ textTokens "[a]", pyFloat (trimChars t) = none :=
  loadText_parseError_iff "[a]"

lemma read_dds_eval (tail payload : List Nat) (htail : tail.length = 124) :
    read_dds_rgba16f ((ddsMagic ++ tail) ++ payload)
      = if payload.length < 131072 then Except.error DDSError.incompleteData
        else Except.ok (payload.take 131072, 128, 128) := by
  have hlen : (ddsMagic ++ tail).length = 128 := by
    simp [ddsMagic, htail]
  have hheader : ((ddsMagic ++ tail) ++ payload).take 128 = ddsMagic ++ tail :=
    List.take_left' hlen
  have hmagic : (ddsMagic ++ tail).take 4 = ddsMagic :=
    List.take_left' (by simp [ddsMagic])
  have hdrop : ((ddsMagic ++ tail) ++ payload).drop 128 = payload :=
    List.drop_left' hlen
  rw [read_dds_rgba16f]
  simp only [hheader, hmagic, hdrop, if_pos rfl]
  rw [show (128 * 128 * 4 * 2 : Nat) = 131072 from by norm_num,
    List.length_take]
  by_cases hp : payload.length < 131072
  · rw [if_pos (show min 131072 payload.length < 131072 by omega), if_pos hp,
      if_pos trivial]
  · rw [if_neg (show ¬min 131072 payload.length < 131072 by omega), if_neg hp,
      if_pos trivial]

/-- C9: for every file whose first 4 bytes are the DDS magic and whose
pixel payload is long enough, the reader returns width 128 and height
128 and exactly the first `128*128*4*2 = 131072` payload bytes, whatever
the remaining 124 header bytes (which contain the container's declared
dimensions) say: the declared width and height are never consulted. -/
theorem read_dds_ignores_header_dims (tail payload : List Nat)
    (htail : tail.length = 124) (hlen : 131072 ≤ payload.length) :
    read_dds_rgba16f ((ddsMagic ++ tail) ++ payload)
      = Except.ok (payload.take 131072, 128, 128)
    ∧ (payload.take 131072).length = 131072 := by
  constructor
  · rw [read_dds_eval tail payload htail, if_neg (by omega)]
  · rw [List.length_take]
    omega

theorem read_dds_ignores_header_dims_witness :
    read_dds_rgba16f ((ddsMagic ++ List.replicate 124 0)
        ++ List.replicate 131072 0)
      = Except.ok ((List.replicate 131072 (0 : Nat)).take 131072, 128, 128)
    ∧ ((List.replicate 131072 (0 : Nat)).take 131072).length = 131072 :=
  read_dds_ignores_header_dims (List.replicate 124 0)
    (List.replicate 131072 0) (List.length_replicate 124 0)
    (le_of_eq (List.length_replicate 131072 0).symm)

/-- C7 counterexample: a payload one byte longer than required is not
rejected — the reader truncates it to the required 131072 bytes and
succeeds, so "differs in either direction is rejected" is false. -/
theorem read_dds_long_payload_accepted :
    read_dds_rgba16f ((ddsMagic ++ List.replicate 124 0)
        ++ List.replicate 131073 0)
      = Except.ok (List.replicate 131072 (0 : Nat), 128, 128) := by
  rw [read_dds_eval (List.replicate 124 0) (List.replicate 131073 0)
      (List.length_replicate 124 0),
    if_neg (by rw [List.length_replicate]; norm_num),
    List.take_replicate]
  norm_num

/-- C7 amended: with a valid magic header, the binary loader fails with
IncompleteData exactly when the available pixel-payload byte count is
less than the required `128*128*4*2 = 131072` bytes; a payload longer
than required is accepted, with the excess bytes ignored. -/
theorem read_dds_incomplete_iff (tail payload : List Nat)
    (htail : tail.length = 124) :
    read_dds_rgba16f ((ddsMagic ++ tail) ++ payload)
        = Except.error DDSError.incompleteData
      ↔ payload.length < 131072 := by
  rw [read_dds_eval tail payload htail]
  by_cases hp : payload.length < 131072
  · simp [hp]
  · simp [hp]

theorem read_dds_incomplete_iff_witness :
    read_dds_rgba16f ((ddsMagic ++ List.replicate 124 0) ++ ([] : List Nat))
        = Except.error DDSError.incompleteData
      ↔ ([] : List Nat).length < 131072 :=
  read_dds_incomplete_iff (List.replicate 124 0) [] (List.length_replicate 124 0)

lemma loadText_fit_eval : okD (loadText "[0.0, 1.0, 1.0, 0.0]") [] = [0, 1, 1, 0] := by
  have hp : loadText "[0.0, 1.0, 1.0, 0.0]" = Except.ok
      [(((0 : Nat) : ℚ) + ((0 : Nat) : ℚ) / 10 ^ 1) * 10 ^ (0 : ℤ),
       (((1 : Nat) : ℚ) + ((0 : Nat) : ℚ) / 10 ^ 1) * 10 ^ (0 : ℤ),
       (((1 : Nat) : ℚ) + ((0 : Nat) : ℚ) / 10 ^ 1) * 10 ^ (0 : ℤ),
       (((0 : Nat) : ℚ) + ((0 : Nat) : ℚ) / 10 ^ 1) * 10 ^ (0 : ℤ)] := rfl
  rw [hp]
  simp only [okD]
  norm_num

lemma designMatrix_deg1_eval :
    designMatrix 2 2 (lsCoordOf 2) (lsCoordOf 2) (terms 1)
      = [[1, 0, 0], [1, 1, 0], [1, 0, 1], [1, 1, 1]] := by
  norm_num [designMatrix, lsCoordOf, linspace01, terms, cheb, List.range_succ]

lemma sse_deg1_expand (a b c : ℚ) :
    sse [[1, 0, 0], [1, 1, 0], [1, 0, 1], [1, 1, 1]] [0, 1, 1, 0] [a, b, c]
      = a ^ 2 + (1 - (a + b)) ^ 2 + (1 - (a + c)) ^ 2 + (a + b + c) ^ 2 := by
  simp [sse, dotProd]
  ring

lemma sse_deg1_lower (a b c : ℚ) :
    1 ≤ a ^ 2 + (1 - (a + b)) ^ 2 + (1 - (a + c)) ^ 2 + (a + b + c) ^ 2 := by
  nlinarith [sq_nonneg (b + c), sq_nonneg (b - c), sq_nonneg (2 * a + b + c - 1)]

/-- C5: fitting the 2×2 saddle grid parsed from the text
`"[0.0, 1.0, 1.0, 0.0]"` (row-major `[[0,1],[1,0]]`) with the degree-1
triangular basis `[(0,0),(0,1),(1,0)]` over normalized coordinates
`{0,1}×{0,1}` by linear least squares gives a mean-squared error that is
strictly positive and below 0.3 (it equals 1/4): the triangular
enumeration at total degree 1 excludes the cross term `(1,1)`, so the
saddle cannot be represented exactly. -/
theorem degree1_saddle_mse (β : List ℚ)
    (h : IsLstsqSol (terms 1).length
      (designMatrix 2 2 (lsCoordOf 2) (lsCoordOf 2) (terms 1))
      (okD (loadText "[0.0, 1.0, 1.0, 0.0]") []) β) :
    0 < mseOfFit (designMatrix 2 2 (lsCoordOf 2) (lsCoordOf 2) (terms 1))
        (okD (loadText "[0.0, 1.0, 1.0, 0.0]") []) β
    ∧ mseOfFit (designMatrix 2 2 (lsCoordOf 2) (lsCoordOf 2) (terms 1))
        (okD (loadText "[0.0, 1.0, 1.0, 0.0]") []) β < 3 / 10 := by
  obtain ⟨hlen, hmin⟩ := h
  obtain ⟨b0, b1, b2, rfl⟩ :=
    List.length_eq_three.mp (hlen.trans (by decide))
  have hopt := hmin [1/2, 0, 0] (by decide)
  rw [designMatrix_deg1_eval, loadText_fit_eval, sse_deg1_expand,
    sse_deg1_expand] at hopt
  have hub : b0 ^ 2 + (1 - (b0 + b1)) ^ 2 + (1 - (b0 + b2)) ^ 2
      + (b0 + b1 + b2) ^ 2 ≤ 1 := by
    norm_num at hopt
    linarith
  have hlow := sse_deg1_lower b0 b1 b2
  rw [mseOfFit, designMatrix_deg1_eval, loadText_fit_eval, sse_deg1_expand]
  have h4 : ((([0, 1, 1, 0] : List ℚ).length : Nat) : ℚ) = 4 := by norm_num
  rw [h4]
  constructor
  · linarith
  · linarith

lemma lstsq_opt_deg1 : IsLstsqSol (terms 1).length
    (designMatrix 2 2 (lsCoordOf 2) (lsCoordOf 2) (terms 1))
    (okD (loadText "[0.0, 1.0, 1.0, 0.0]") []) [1/2, 0, 0] := by
  constructor
  · decide
  · intro γ hγ
    obtain ⟨c0, c1, c2, rfl⟩ :=
      List.length_eq_three.mp (hγ.trans (by decide))
    rw [designMatrix_deg1_eval, loadText_fit_eval, sse_deg1_expand,
      sse_deg1_expand]
    have hc := sse_deg1_lower c0 c1 c2
    norm_num
    linarith

theorem degree1_saddle_mse_witness :
    0 < mseOfFit (designMatrix 2 2 (lsCoordOf 2) (lsCoordOf 2) (terms 1))
        (okD (loadText "[0.0, 1.0, 1.0, 0.0]") []) [1/2, 0, 0]
    ∧ mseOfFit (designMatrix 2 2 (lsCoordOf 2) (lsCoordOf 2) (terms 1))
        (okD (loadText "[0.0, 1.0, 1.0, 0.0]") []) [1/2, 0, 0] < 3 / 10 :=
  degree1_saddle_mse [1/2, 0, 0] lstsq_opt_deg1

end SheenLUT
